import Mathlib

/-!
Shallow embedding of the fuzzy-subsequence todo-list core
(`src/todo_list.rs`).  Strings are modelled as lists of byte values
(`List Nat`, ASCII); 32-bit masks are modelled as `Nat` (all mask values
produced by the code are below 2 ^ 29, so no wrap-around can occur and
no explicit `% 2 ^ 32` is needed).
-/

namespace Todo

/-- Embeds `get_alphabet_position` (todo_list.rs:109-119): letter index for
`a..z` / `A..Z`, 28 for `-`, sentinel 127 otherwise. -/
def get_alphabet_position (c : Nat) : Nat :=
  if 97 ≤ c ∧ c ≤ 122 then c - 97
  else if 65 ≤ c ∧ c ≤ 90 then c - 65
  else if c = 45 then 28
  else 127

/-- Embeds `get_bit_position` (todo_list.rs:122-132): one bit at the letter
index, bit 28 for `-`, and 0 for any other byte. -/
def get_bit_position (c : Nat) : Nat :=
  if 97 ≤ c ∧ c ≤ 122 then 1 <<< (c - 97)
  else if 65 ≤ c ∧ c ≤ 90 then 1 <<< (c - 65)
  else if c = 45 then 1 <<< 28
  else 0

/-- A byte recognized by the classifier: a letter or `-`. -/
def recognizedChar (c : Nat) : Bool :=
  (97 ≤ c && c ≤ 122) || (65 ≤ c && c ≤ 90) || (c == 45)

/-- Embeds the inner loop of `hash_words` (todo_list.rs:135-147): merge one
word into the accumulated signature, OR-ing class bits positionwise and
growing the signature when the word is longer. -/
def hashInto : List Nat → List Nat → List Nat
  | [], acc => acc
  | c :: cs, [] => get_bit_position c :: hashInto cs []
  | c :: cs, a :: rest => (a ||| get_bit_position c) :: hashInto cs rest

/-- Embeds `hash_words` (todo_list.rs:135-147). -/
def hash_words (words : List (List Nat)) : List Nat :=
  words.foldl (fun acc w => hashInto w acc) []

/-- Embeds `match_with_hash` (todo_list.rs:150-166): greedy scan of the
signature, advancing past positions whose mask misses the pattern
character's class bit. -/
def match_with_hash : List Nat → List Nat → Bool
  | [], _ => true
  | _ :: _, [] => false
  | c :: cs, h :: hs =>
    if h &&& get_bit_position c ≠ 0 then match_with_hash cs hs
    else match_with_hash (c :: cs) hs

/-- Embeds `is_subsequence` (todo_list.rs:169-185): greedy scan of the
text, advancing past bytes whose alphabet slot differs from the pattern
character's slot. -/
def is_subsequence : List Nat → List Nat → Bool
  | [], _ => true
  | _ :: _, [] => false
  | c :: cs, b :: bs =>
    if get_alphabet_position b = get_alphabet_position c then is_subsequence cs bs
    else is_subsequence (c :: cs) bs

/-- Embeds `match_word_deterministic` (todo_list.rs:188-190). -/
def match_word_deterministic (pattern : List Nat) (words : List (List Nat)) : Bool :=
  words.any (fun x => is_subsequence pattern x)

/-- Embeds `match_words` (todo_list.rs:193-197). -/
def match_words (patterns : List (List Nat)) (words_hash : List Nat)
    (words : List (List Nat)) : Bool :=
  patterns.all (fun w => match_with_hash w words_hash && match_word_deterministic w words)

/-- Embeds `TodoItem` (todo_list.rs:72-80); `Index` is modelled as `Nat`. -/
structure TodoItem where
  index : Nat
  description : List (List Nat)
  tags : List (List Nat)
  done : Bool
  words_hash : List Nat
  tags_hash : List Nat
deriving DecidableEq

/-- Embeds `TodoList` (todo_list.rs:102-106). -/
structure TodoList where
  top_index : Nat
  items : List TodoItem
deriving DecidableEq

/-- Embeds `SearchParams` as used by `TodoList::search` (todo_list.rs:239-241):
a list of word patterns and a list of tag patterns, already unwrapped to
plain strings. -/
structure SearchParams where
  words : List (List Nat)
  tags : List (List Nat)

/-- Embeds `str::split(' ')` as used by `TodoList::push` (todo_list.rs:208-212):
splitting on every single space, keeping empty tokens, and producing one
empty token for the empty string. -/
def splitSpace : List Nat → List (List Nat)
  | [] => [[]]
  | c :: cs =>
    if c = 32 then [] :: splitSpace cs
    else
      match splitSpace cs with
      | t :: ts => (c :: t) :: ts
      | [] => [[c]]

/-- Embeds `TodoList::new` (todo_list.rs:200-205). -/
def TodoList.new : TodoList :=
  { top_index := 0, items := [] }

/-- Embeds `TodoList::push` (todo_list.rs:207-228): split the description,
hash both word lists, append the new item, return the old counter and
increment it. -/
def TodoList.push (tl : TodoList) (description : List Nat) (tags : List (List Nat)) :
    Nat × TodoList :=
  let words := splitSpace description
  let words_hash := hash_words words
  let tags_hash := hash_words tags
  (tl.top_index,
    { top_index := tl.top_index + 1,
      items := tl.items ++
        [{ index := tl.top_index, description := words, tags := tags,
           done := false, words_hash := words_hash, tags_hash := tags_hash }] })

/-- Sets the `done` flag of the item at a given position, as the in-place
assignment `self.items[idx].done = true` does (todo_list.rs:232). -/
def setDone : List TodoItem → Nat → List TodoItem
  | [], _ => []
  | it :: its, 0 => { it with done := true } :: its
  | it :: its, n + 1 => it :: setDone its n

/-- Embeds `TodoList::done_with_index` (todo_list.rs:230-237), returning the
result together with the updated store. -/
def TodoList.done_with_index (tl : TodoList) (idx : Nat) : Option Nat × TodoList :=
  if idx < tl.top_index then
    (some idx, { top_index := tl.top_index, items := setDone tl.items idx })
  else
    (none, tl)

/-- The per-item search predicate of `TodoList::search` (todo_list.rs:243-247). -/
def searchPred (sp : SearchParams) (item : TodoItem) : Bool :=
  !item.done
    && match_words sp.words item.words_hash item.description
    && match_words sp.tags item.tags_hash item.tags

/-- Embeds `TodoList::search` (todo_list.rs:239-249): the reversed item list
is filtered by the predicate and mapped to indices (the rayon parallel
iterator collects in the same order as the sequential reversed scan). -/
def TodoList.search (tl : TodoList) (sp : SearchParams) : List Nat :=
  (tl.items.reverse.filter (fun item => searchPred sp item)).map (fun item => item.index)

/-! ### Bitmask helper lemmas -/

theorem lor_land_of_land {a b c : Nat} (h : b &&& a = a) : (c ||| b) &&& a = a := by
  apply Nat.eq_of_testBit_eq
  intro i
  have hb := congrArg (Nat.testBit · i) h
  simp only [Nat.testBit_land, Nat.testBit_lor] at hb ⊢
  cases hc : c.testBit i <;> cases hbb : b.testBit i <;> cases ha : a.testBit i <;>
    simp [hc, hbb, ha] at hb ⊢

theorem land_self_eq (a : Nat) : a &&& a = a := by
  apply Nat.eq_of_testBit_eq
  intro i
  simp [Nat.testBit_land]

theorem land_ne_zero_of_land_eq {a h h' : Nat} (hsub : h' &&& h = h) (hne : h &&& a ≠ 0) :
    h' &&& a ≠ 0 := by
  intro hz
  apply hne
  have : h &&& a = (h' &&& h) &&& a := by rw [hsub]
  rw [this]
  apply Nat.eq_of_testBit_eq
  intro i
  have hz' := congrArg (Nat.testBit · i) hz
  simp only [Nat.testBit_land, Nat.zero_testBit] at hz' ⊢
  cases hh' : h'.testBit i <;> cases hh : h.testBit i <;> cases ha : a.testBit i <;>
    simp [hh', hh, ha] at hz' ⊢

/-! ### Pointwise characterization of `hash_words` -/

/-- The length of the longest word in a list (0 for the empty list). -/
def maxLen (ws : List (List Nat)) : Nat :=
  ws.foldr (fun w m => max w.length m) 0

/-- The OR, over all words, of the class bit of the word's character at
position `i` (out-of-range positions contribute `get_bit_position 0 = 0`). -/
def orAt (ws : List (List Nat)) (i : Nat) : Nat :=
  ws.foldr (fun w b => get_bit_position (w.getD i 0) ||| b) 0

theorem get_bit_position_zero : get_bit_position 0 = 0 := by decide

theorem hashInto_length (w acc : List Nat) :
    (hashInto w acc).length = max w.length acc.length := by
  induction w generalizing acc with
  | nil => simp [hashInto]
  | cons c cs ih =>
    cases acc with
    | nil => simp [hashInto, ih]
    | cons a rest => simp [hashInto, ih, Nat.succ_max_succ]

theorem hashInto_getD (w acc : List Nat) (i : Nat) :
    (hashInto w acc).getD i 0 = acc.getD i 0 ||| get_bit_position (w.getD i 0) := by
  induction w generalizing acc i with
  | nil => simp [hashInto, get_bit_position_zero]
  | cons c cs ih =>
    cases acc with
    | nil =>
      cases i with
      | zero => simp [hashInto]
      | succ j => simpa [hashInto] using ih [] j
    | cons a rest =>
      cases i with
      | zero => simp [hashInto]
      | succ j => simpa [hashInto] using ih rest j

theorem foldl_hashInto_length (ws : List (List Nat)) (acc : List Nat) :
    (ws.foldl (fun a w => hashInto w a) acc).length = max (maxLen ws) acc.length := by
  induction ws generalizing acc with
  | nil => simp [maxLen]
  | cons w ws ih =>
    simp only [List.foldl_cons, ih, hashInto_length, maxLen, List.foldr_cons]
    omega

theorem foldl_hashInto_getD (ws : List (List Nat)) (acc : List Nat) (i : Nat) :
    (ws.foldl (fun a w => hashInto w a) acc).getD i 0 = acc.getD i 0 ||| orAt ws i := by
  induction ws generalizing acc with
  | nil => simp [orAt]
  | cons w ws ih =>
    simp only [List.foldl_cons, ih, hashInto_getD, orAt, List.foldr_cons]
    rw [Nat.lor_assoc]

theorem hash_words_length (ws : List (List Nat)) :
    (hash_words ws).length = maxLen ws := by
  simp [hash_words, foldl_hashInto_length]

theorem hash_words_getD (ws : List (List Nat)) (i : Nat) :
    (hash_words ws).getD i 0 = orAt ws i := by
  simpa [hash_words] using foldl_hashInto_getD ws [] i

theorem length_le_maxLen {w : List Nat} {ws : List (List Nat)} (h : w ∈ ws) :
    w.length ≤ maxLen ws := by
  induction ws with
  | nil => cases h
  | cons v vs ih =>
    rcases List.mem_cons.mp h with h | h
    · subst h
      simp [maxLen, Nat.le_max_left]
    · exact le_trans (ih h) (by simp [maxLen, Nat.le_max_right])

theorem orAt_land_mem {w : List Nat} {ws : List (List Nat)} (h : w ∈ ws) (i : Nat) :
    orAt ws i &&& get_bit_position (w.getD i 0) = get_bit_position (w.getD i 0) := by
  induction ws with
  | nil => cases h
  | cons v vs ih =>
    rcases List.mem_cons.mp h with h | h
    · subst h
      rw [orAt, List.foldr_cons, Nat.lor_comm]
      exact lor_land_of_land (land_self_eq _)
    · rw [orAt, List.foldr_cons]
      exact lor_land_of_land (ih h)

/-! ### Classifier lemmas -/

theorem pos_le_of_recognized {c : Nat} (h : recognizedChar c = true) :
    get_alphabet_position c ≤ 28 := by
  simp only [recognizedChar, Bool.or_eq_true, Bool.and_eq_true, decide_eq_true_eq,
    beq_iff_eq] at h
  unfold get_alphabet_position
  rcases h with (⟨h1, h2⟩ | ⟨h1, h2⟩) | h3
  · rw [if_pos ⟨h1, h2⟩]; omega
  · rw [if_neg (by omega), if_pos ⟨h1, h2⟩]; omega
  · subst h3; decide

theorem pos_eq_127_of_not_recognized {c : Nat} (h : recognizedChar c = false) :
    get_alphabet_position c = 127 := by
  simp only [recognizedChar, Bool.or_eq_false_iff, Bool.and_eq_false_iff,
    decide_eq_false_iff_not, beq_eq_false_iff_ne, ne_eq, not_le] at h
  unfold get_alphabet_position
  rw [if_neg (by omega), if_neg (by omega), if_neg (by omega)]

theorem bit_of_recognized {c : Nat} (h : recognizedChar c = true) :
    get_bit_position c = 1 <<< get_alphabet_position c := by
  simp only [recognizedChar, Bool.or_eq_true, Bool.and_eq_true, decide_eq_true_eq,
    beq_iff_eq] at h
  unfold get_bit_position get_alphabet_position
  rcases h with (⟨h1, h2⟩ | ⟨h1, h2⟩) | h3
  · rw [if_pos ⟨h1, h2⟩, if_pos ⟨h1, h2⟩]
  · have hn : ¬(97 ≤ c ∧ c ≤ 122) := by omega
    rw [if_neg hn, if_neg hn, if_pos ⟨h1, h2⟩, if_pos ⟨h1, h2⟩]
  · subst h3; decide

theorem bit_ne_zero_of_recognized {c : Nat} (h : recognizedChar c = true) :
    get_bit_position c ≠ 0 := by
  rw [bit_of_recognized h, Nat.one_shiftLeft]
  positivity

theorem bit_zero_of_not_recognized {c : Nat} (h : recognizedChar c = false) :
    get_bit_position c = 0 := by
  simp only [recognizedChar, Bool.or_eq_false_iff, Bool.and_eq_false_iff,
    decide_eq_false_iff_not, beq_eq_false_iff_ne, ne_eq, not_le] at h
  unfold get_bit_position
  rw [if_neg (by omega), if_neg (by omega), if_neg (by omega)]

theorem bit_eq_of_pos_eq {b c : Nat} (he : get_alphabet_position b = get_alphabet_position c)
    (hc : recognizedChar c = true) : get_bit_position b = get_bit_position c := by
  have hb : recognizedChar b = true := by
    by_contra hnb
    have h127 := pos_eq_127_of_not_recognized (Bool.eq_false_iff.mpr hnb)
    have := pos_le_of_recognized hc
    omega
  rw [bit_of_recognized hb, bit_of_recognized hc, he]

/-! ### A relational (non-greedy) version of the pre-filter scan -/

/-- `HashMatch p s` holds when the characters of `p` can be assigned, in
order, to positions of the signature `s` whose masks contain their class
bits — the non-greedy specification that `match_with_hash` decides. -/
inductive HashMatch : List Nat → List Nat → Prop where
  | nil (hs : List Nat) : HashMatch [] hs
  | take {c : Nat} {cs : List Nat} {h : Nat} {hs : List Nat} :
      h &&& get_bit_position c ≠ 0 → HashMatch cs hs → HashMatch (c :: cs) (h :: hs)
  | skip {p : List Nat} {h : Nat} {hs : List Nat} :
      HashMatch p hs → HashMatch p (h :: hs)

theorem hashMatch_tail : ∀ {t p}, HashMatch p t → ∀ {c cs}, p = c :: cs → HashMatch cs t := by
  intro t p hm
  induction hm with
  | nil => intro c cs h; cases h
  | take hne hm ih => intro c' cs' he; cases he; exact HashMatch.skip hm
  | skip hm ih => intro c' cs' he; subst he; exact HashMatch.skip (ih rfl)

theorem match_with_hash_of_hashMatch : ∀ (t p), HashMatch p t → match_with_hash p t = true := by
  intro t
  induction t with
  | nil =>
    intro p hm
    cases hm with
    | nil => rfl
  | cons h hs ih =>
    intro p hm
    cases p with
    | nil => rfl
    | cons c cs =>
      by_cases hb : h &&& get_bit_position c ≠ 0
      · simp only [match_with_hash, if_pos hb]
        apply ih
        cases hm with
        | take _ hm' => exact hm'
        | skip hm' => exact hashMatch_tail hm' rfl
      · simp only [match_with_hash, if_neg hb]
        apply ih
        cases hm with
        | take hne _ => exact absurd hne hb
        | skip hm' => exact hm'

/-- `s'` is positionwise at least `s`: it is at least as long and each
mask contains all the bits of the corresponding mask of `s`. -/
def Dominates (s' s : List Nat) : Prop :=
  s.length ≤ s'.length ∧ ∀ i, s'.getD i 0 &&& s.getD i 0 = s.getD i 0

theorem hashMatch_mono {p s : List Nat} (hm : HashMatch p s) :
    ∀ {s' : List Nat}, Dominates s' s → HashMatch p s' := by
  induction hm with
  | nil => intro s' _; exact HashMatch.nil s'
  | take hne hm ih =>
    intro s' hd
    cases s' with
    | nil => exact absurd hd.1 (by simp)
    | cons h' hs' =>
      apply HashMatch.take
      · have hsub := hd.2 0
        simp only [List.getD_cons_zero] at hsub
        exact land_ne_zero_of_land_eq hsub hne
      · refine ih ⟨?_, ?_⟩
        · have := hd.1; simpa using this
        · intro i; have := hd.2 (i + 1); simpa using this
  | skip hm ih =>
    intro s' hd
    cases s' with
    | nil => exact absurd hd.1 (by simp)
    | cons h' hs' =>
      apply HashMatch.skip
      refine ih ⟨?_, ?_⟩
      · have := hd.1; simpa using this
      · intro i; have := hd.2 (i + 1); simpa using this

theorem hashMatch_of_subsequence : ∀ (w p : List Nat),
    (∀ c ∈ p, recognizedChar c = true) → is_subsequence p w = true →
    HashMatch p (w.map get_bit_position) := by
  intro w
  induction w with
  | nil =>
    intro p hrec hs
    cases p with
    | nil => exact HashMatch.nil _
    | cons c cs => simp [is_subsequence] at hs
  | cons b bs ih =>
    intro p hrec hs
    cases p with
    | nil => exact HashMatch.nil _
    | cons c cs =>
      by_cases he : get_alphabet_position b = get_alphabet_position c
      · have hc : recognizedChar c = true := hrec c (by simp)
        have hbit : get_bit_position b = get_bit_position c := bit_eq_of_pos_eq he hc
        rw [List.map_cons]
        apply HashMatch.take
        · rw [hbit, land_self_eq]
          exact bit_ne_zero_of_recognized hc
        · apply ih cs (fun d hd => hrec d (by simp [hd]))
          simpa only [is_subsequence, if_pos he] using hs
      · rw [List.map_cons]
        apply HashMatch.skip
        apply ih (c :: cs) hrec
        simpa only [is_subsequence, if_neg he] using hs

theorem getD_map_bit (w : List Nat) (i : Nat) :
    (w.map get_bit_position).getD i 0 = get_bit_position (w.getD i 0) := by
  induction w generalizing i with
  | nil => simp [get_bit_position_zero]
  | cons b bs ih =>
    cases i with
    | zero => simp
    | succ n =>
      simp only [List.map_cons, List.getD_cons_succ]
      exact ih n

theorem hash_words_dominates {w : List Nat} {W : List (List Nat)} (hw : w ∈ W) :
    Dominates (hash_words W) (w.map get_bit_position) := by
  constructor
  · rw [List.length_map, hash_words_length]
    exact length_le_maxLen hw
  · intro i
    rw [hash_words_getD, getD_map_bit]
    exact orAt_land_mem hw i

/-! ### Permutation invariance helpers -/

theorem foldr_perm_of_comm {α β : Type} (g : α → β → β)
    (hg : ∀ x y b, g x (g y b) = g y (g x b)) :
    ∀ {l₁ l₂ : List α}, l₁.Perm l₂ → ∀ b, l₁.foldr g b = l₂.foldr g b := by
  intro l₁ l₂ hp
  induction hp with
  | nil => intro b; rfl
  | cons x h ih => intro b; simp only [List.foldr_cons, ih b]
  | swap x y l => intro b; exact hg y x _
  | trans h1 h2 ih1 ih2 => intro b; rw [ih1 b, ih2 b]

theorem list_ext_getD : ∀ (l₁ l₂ : List Nat), l₁.length = l₂.length →
    (∀ i, l₁.getD i 0 = l₂.getD i 0) → l₁ = l₂ := by
  intro l₁
  induction l₁ with
  | nil =>
    intro l₂ hl _
    cases l₂ with
    | nil => rfl
    | cons b bs => simp at hl
  | cons a as ih =>
    intro l₂ hl hg
    cases l₂ with
    | nil => simp at hl
    | cons b bs =>
      have h0 := hg 0
      simp only [List.getD_cons_zero] at h0
      rw [h0, ih bs (by simpa using hl) (fun i => by simpa using hg (i + 1))]

/-! ### Claim theorems -/

/-- C1 (counterexample to the claim as stated): for the word list `W = ["1"]`,
the word `w = "1" ∈ W` and the pattern `p = "1"` (byte 49, outside the
recognized alphabet), `is_subsequence p w` is true — the deterministic scan
compares the two bytes through the shared sentinel slot 127 — yet
`match_with_hash p (hash_words W)` is false, because the unrecognized byte
contributes class bit 0 and `signature[i] &&& 0 = 0` can never pass.  So the
pre-filter does yield a false negative here. -/
theorem claim1_counterexample :
    [49] ∈ [[49]] ∧ is_subsequence [49] [49] = true ∧
    match_with_hash [49] (hash_words [[49]]) = false := by
  decide

/-- C1 (amended): for every word list `W`, word `w ∈ W` and pattern `p` all
of whose characters are recognized by the classifier (letters or `-`), if
`is_subsequence p w` is true then `match_with_hash p (hash_words W)` is
true — restricted to recognized patterns, the pre-filter never yields a
false negative. -/
theorem claim1_prefilter_sound (W : List (List Nat)) (w p : List Nat)
    (hw : w ∈ W) (hrec : ∀ c ∈ p, recognizedChar c = true)
    (hsub : is_subsequence p w = true) :
    match_with_hash p (hash_words W) = true :=
  match_with_hash_of_hashMatch _ _
    (hashMatch_mono (hashMatch_of_subsequence w p hrec hsub) (hash_words_dominates hw))

/-- C1 witness: the amended soundness theorem applied to the concrete word
list `["abc", "d"]`, word `"abc"` and pattern `"ac"`. -/
theorem claim1_prefilter_sound_witness :
    match_with_hash [97, 99] (hash_words [[97, 98, 99], [100]]) = true :=
  claim1_prefilter_sound [[97, 98, 99], [100]] [97, 98, 99] [97, 99]
    (by decide) (by decide) (by decide)

/-- C3: `match_words` returns true iff every pattern passes both the
signature pre-filter and the deterministic any-word subsequence check, and
the empty pattern list vacuously matches. -/
theorem claim3_match_words (patterns : List (List Nat)) (words_hash : List Nat)
    (words : List (List Nat)) :
    (match_words patterns words_hash words = true ↔
      ∀ p ∈ patterns, match_with_hash p words_hash = true ∧
        match_word_deterministic p words = true) ∧
    match_words [] words_hash words = true := by
  constructor
  · simp [match_words, List.all_eq_true, Bool.and_eq_true]
  · rfl

/-- C3 witness: the characterization evaluated on the concrete pattern list
`["a"]` against the word list `["a"]`, and the empty pattern list. -/
theorem claim3_match_words_witness :
    match_words [[97]] (hash_words [[97]]) [[97]] = true ∧
    match_words [] [] [] = true :=
  ⟨(claim3_match_words [[97]] (hash_words [[97]]) [[97]]).1.mpr (by decide),
   (claim3_match_words [] [] []).2⟩

/-- C4: `hash_words` returns a signature whose length is the length of the
longest input word (`maxLen`, 0 for the empty list), and for every word `w`
in the list and every index `i < w.length` the class bit of `w`'s `i`-th
character is set in `signature[i]`. -/
theorem claim4_signature_invariant (words : List (List Nat)) :
    (hash_words words).length = maxLen words ∧
    ∀ w ∈ words, ∀ i, i < w.length →
      (hash_words words).getD i 0 &&& get_bit_position (w.getD i 0) =
        get_bit_position (w.getD i 0) := by
  refine ⟨hash_words_length words, ?_⟩
  intro w hw i _
  rw [hash_words_getD]
  exact orAt_land_mem hw i

/-- C4 witness: the invariant evaluated on the concrete word list
`["ab", "c"]` at index 1 of `"ab"`. -/
theorem claim4_signature_invariant_witness :
    (hash_words [[97, 98], [99]]).length = maxLen [[97, 98], [99]] ∧
    (hash_words [[97, 98], [99]]).getD 1 0 &&& get_bit_position 98 =
      get_bit_position 98 := by
  have h := claim4_signature_invariant [[97, 98], [99]]
  refine ⟨h.1, ?_⟩
  have h2 := h.2 [97, 98] (by decide) 1 (by decide)
  simpa using h2

/-- C6: the three subsequence laws: the empty pattern matches every text,
every pattern is a subsequence of itself, and the check is case-insensitive
on the concrete pair `("AbC", "abc")`. -/
theorem claim6_subsequence_laws :
    (∀ s : List Nat, is_subsequence [] s = true) ∧
    (∀ p : List Nat, is_subsequence p p = true) ∧
    is_subsequence [65, 98, 67] [97, 98, 99] = true := by
  refine ⟨fun s => by cases s <;> rfl, fun p => ?_, by decide⟩
  induction p with
  | nil => rfl
  | cons c cs ih => simpa only [is_subsequence, if_pos rfl] using ih

/-- C8: `hash_words` is order-independent across words: permuting the word
list leaves the signature unchanged. -/
theorem claim8_hash_words_perm (W W' : List (List Nat)) (hp : W.Perm W') :
    hash_words W = hash_words W' := by
  apply list_ext_getD
  · rw [hash_words_length, hash_words_length]
    exact foldr_perm_of_comm _ (fun x y b => by omega) hp 0
  · intro i
    rw [hash_words_getD, hash_words_getD]
    refine foldr_perm_of_comm _ (fun x y b => ?_) hp 0
    rw [← Nat.lor_assoc, Nat.lor_comm (get_bit_position (x.getD i 0)), Nat.lor_assoc]

/-- C8 witness: order independence on the concrete swap of
`["a", "bc"]`. -/
theorem claim8_hash_words_perm_witness :
    hash_words [[97], [98, 99]] = hash_words [[98, 99], [97]] :=
  claim8_hash_words_perm _ _ (List.Perm.swap [98, 99] [97] [])

/-- The key degradation lemma for C7: a pattern containing any byte outside
the recognized alphabet can never pass the pre-filter, whatever the
signature, because that byte's class bit is 0. -/
theorem match_with_hash_false_of_bad : ∀ (hs p : List Nat) (c : Nat), c ∈ p →
    recognizedChar c = false → match_with_hash p hs = false := by
  intro hs
  induction hs with
  | nil =>
    intro p c hc _
    cases p with
    | nil => cases hc
    | cons a as => rfl
  | cons h hs ih =>
    intro p c hc hbad
    cases p with
    | nil => cases hc
    | cons a as =>
      by_cases hb : h &&& get_bit_position a ≠ 0
      · rcases List.mem_cons.mp hc with rfl | hc'
        · refine absurd ?_ hb
          rw [bit_zero_of_not_recognized hbad]
          apply Nat.eq_of_testBit_eq
          intro i
          simp [Nat.testBit_land]
        · simp only [match_with_hash, if_pos hb]
          exact ih as c hc' hbad
      · simp only [match_with_hash, if_neg hb]
        exact ih (a :: as) c hc hbad

/-- C7: out-of-alphabet input is never an error, it degrades to a
non-match: a pattern containing an unrecognized byte fails
`match_with_hash` against every signature (including the empty one), hence
`match_words` is false for any pattern list containing it, hence `search`
returns no item for a query containing it (among its words or its tags). -/
theorem claim7_degrade (p : List Nat) (c : Nat) (hc : c ∈ p)
    (hbad : recognizedChar c = false) :
    (∀ sig : List Nat, match_with_hash p sig = false) ∧
    (∀ (patterns : List (List Nat)) (words_hash : List Nat) (words : List (List Nat)),
      p ∈ patterns → match_words patterns words_hash words = false) ∧
    (∀ (tl : TodoList) (sp : SearchParams),
      p ∈ sp.words ∨ p ∈ sp.tags → tl.search sp = []) := by
  have hfalse : ∀ sig : List Nat, match_with_hash p sig = false :=
    fun sig => match_with_hash_false_of_bad sig p c hc hbad
  have hmw : ∀ (patterns : List (List Nat)) (words_hash : List Nat)
      (words : List (List Nat)), p ∈ patterns →
      match_words patterns words_hash words = false := by
    intro patterns words_hash words hmem
    apply Bool.eq_false_iff.mpr
    intro hall
    have := List.all_eq_true.mp hall p hmem
    rw [Bool.and_eq_true, hfalse words_hash] at this
    exact Bool.false_ne_true this.1
  refine ⟨hfalse, hmw, ?_⟩
  intro tl sp hq
  unfold TodoList.search
  rw [List.map_eq_nil_iff]
  apply List.filter_eq_nil_iff.mpr
  intro item _
  simp only [Bool.not_eq_true, searchPred]
  rcases hq with hq | hq
  · rw [hmw sp.words item.words_hash item.description hq]
    simp
  · rw [hmw sp.tags item.tags_hash item.tags hq]
    simp

/-- C7 witness: the degradation theorem applied to the concrete pattern
`"1"` (byte 49): it fails against the empty signature, and a search for it
in a one-item store returns nothing. -/
theorem claim7_degrade_witness :
    match_with_hash [49] [] = false ∧
    TodoList.search (TodoList.new.push [97] []).2 ⟨[[49]], []⟩ = [] := by
  have h := claim7_degrade [49] 49 (by decide) (by decide)
  exact ⟨h.1 [], h.2.2 _ _ (Or.inl (by decide))⟩

/-! ### Store lemmas -/

theorem setDone_length : ∀ (l : List TodoItem) (idx : Nat),
    (setDone l idx).length = l.length := by
  intro l
  induction l with
  | nil => intro idx; rfl
  | cons it its ih =>
    intro idx
    cases idx with
    | zero => rfl
    | succ n => simp [setDone, ih n]

theorem setDone_getElem? : ∀ (l : List TodoItem) (idx j : Nat),
    (setDone l idx)[j]? =
      (l[j]?).map (fun it => if j = idx then { it with done := true } else it) := by
  intro l
  induction l with
  | nil => intro idx j; simp [setDone]
  | cons it its ih =>
    intro idx j
    cases idx with
    | zero =>
      cases j with
      | zero => simp [setDone]
      | succ jj =>
        simp only [setDone, List.getElem?_cons_succ]
        cases h : its[jj]? <;> simp [h]
    | succ n =>
      cases j with
      | zero => simp [setDone]
      | succ jj =>
        simp only [setDone, List.getElem?_cons_succ, ih n jj]
        cases h : its[jj]? <;> simp [h, Nat.succ_inj]

theorem setDone_idem : ∀ (l : List TodoItem) (idx : Nat),
    setDone (setDone l idx) idx = setDone l idx := by
  intro l
  induction l with
  | nil => intro idx; rfl
  | cons it its ih =>
    intro idx
    cases idx with
    | zero => rfl
    | succ n => simp [setDone, ih n]

/-- The store invariant: the next-identifier counter equals the number of
items, and the item at vector position `i` carries identifier `i`. -/
def WF (tl : TodoList) : Prop :=
  tl.top_index = tl.items.length ∧
  ∀ (i : Nat) (it : TodoItem), tl.items[i]? = some it → it.index = i

/-- The stores reachable from `TodoList::new` by any sequence of `push`,
`done_with_index` and `search` operations (`search` does not produce a
store, so it contributes no constructor). -/
inductive Reachable : TodoList → Prop where
  | new : Reachable TodoList.new
  | push : ∀ {tl : TodoList} {d : List Nat} {tg : List (List Nat)},
      Reachable tl → Reachable (tl.push d tg).2
  | done : ∀ {tl : TodoList} {idx : Nat},
      Reachable tl → Reachable (tl.done_with_index idx).2

theorem setDone_index_getElem? (l : List TodoItem) (idx j : Nat) :
    ((setDone l idx)[j]?).map TodoItem.index = (l[j]?).map TodoItem.index := by
  rw [setDone_getElem?]
  cases h : l[j]? with
  | none => rfl
  | some it => by_cases he : j = idx <;> simp [he]

theorem reachable_wf {tl : TodoList} (hr : Reachable tl) : WF tl := by
  induction hr with
  | new =>
    refine ⟨rfl, fun i it hit => ?_⟩
    simp [TodoList.new] at hit
  | push hr ih =>
    rename_i tl d tg
    obtain ⟨hlen, hidx⟩ := ih
    constructor
    · simp [TodoList.push, hlen]
    · intro i it hit
      simp only [TodoList.push] at hit
      rw [List.getElem?_append] at hit
      by_cases hi : i < tl.items.length
      · rw [if_pos hi] at hit
        exact hidx i it hit
      · rw [if_neg hi] at hit
        have hz : i - tl.items.length = 0 := by
          have := List.getElem?_eq_some_iff.mp hit
          simp at this
          omega
        rw [hz] at hit
        simp only [List.getElem?_cons_zero, Option.some.injEq] at hit
        have hi0 : i - tl.items.length = 0 ∧ ¬i < tl.items.length := ⟨hz, hi⟩
        rw [← hit]
        simp only [hlen]
        omega
  | done hr ih =>
    rename_i tl idx
    obtain ⟨hlen, hidx⟩ := ih
    unfold TodoList.done_with_index
    by_cases hlt : idx < tl.top_index
    · rw [if_pos hlt]
      constructor
      · simp [setDone_length, hlen]
      · intro i it hit
        have hmap := setDone_index_getElem? tl.items idx i
        rw [hit] at hmap
        cases ho : tl.items[i]? with
        | none => rw [ho] at hmap; simp at hmap
        | some it' =>
          rw [ho] at hmap
          simp at hmap
          rw [hmap]
          exact hidx i it' ho
    · rw [if_neg hlt]
      exact ⟨hlen, hidx⟩

/-- C2: `search` returns exactly the indices of the stored items that are
not done and whose words and tags both pass `match_words` against the
query, in reverse insertion order: (a) the result is the predicate-filtered
item list, reversed and mapped to indices; (b) every returned index comes
from a stored item that is not done and matches both pattern lists; (c) in
a well-formed store a done item's index never appears in any result; (d) in
the concrete store built by three matching inserts the result is
`[2, 1, 0]` and the three inserts returned ids 0, 1, 2. -/
theorem claim2_search (tl : TodoList) (sp : SearchParams) :
    (tl.search sp = ((tl.items.filter (searchPred sp)).map TodoItem.index).reverse) ∧
    (∀ i : Nat, i ∈ tl.search sp → ∃ item : TodoItem, item ∈ tl.items ∧
      item.index = i ∧ item.done = false ∧
      match_words sp.words item.words_hash item.description = true ∧
      match_words sp.tags item.tags_hash item.tags = true) ∧
    (WF tl → ∀ item : TodoItem, item ∈ tl.items → item.done = true →
      item.index ∉ tl.search sp) ∧
    ((((TodoList.new.push [97] []).2.push [97] []).2.push [97] []).2.search
        ⟨[[97]], []⟩ = [2, 1, 0] ∧
      (TodoList.new.push [97] []).1 = 0 ∧
      ((TodoList.new.push [97] []).2.push [97] []).1 = 1 ∧
      (((TodoList.new.push [97] []).2.push [97] []).2.push [97] []).1 = 2) := by
  have hmemb : ∀ i : Nat, i ∈ tl.search sp → ∃ item : TodoItem, item ∈ tl.items ∧
      item.index = i ∧ item.done = false ∧
      match_words sp.words item.words_hash item.description = true ∧
      match_words sp.tags item.tags_hash item.tags = true := by
    intro i hi
    unfold TodoList.search at hi
    rcases List.mem_map.mp hi with ⟨item, hmem, hidx⟩
    rcases List.mem_filter.mp hmem with ⟨hrev, hpred⟩
    simp only [searchPred, Bool.and_eq_true, Bool.not_eq_true'] at hpred
    exact ⟨item, List.mem_reverse.mp hrev, hidx, hpred.1.1, hpred.1.2, hpred.2⟩
  refine ⟨?_, hmemb, ?_, by decide⟩
  · unfold TodoList.search
    rw [List.filter_reverse, List.map_reverse]
  · intro hwf item hmem hdone hin
    rcases hmemb item.index hin with ⟨item', hmem', hidx', hdone', _, _⟩
    rcases List.mem_iff_getElem?.mp hmem with ⟨i, hi⟩
    rcases List.mem_iff_getElem?.mp hmem' with ⟨i', hi'⟩
    have h1 := hwf.2 i item hi
    have h2 := hwf.2 i' item' hi'
    have : i' = i := by rw [← h1, ← h2, hidx']
    rw [this, hi] at hi'
    have heq := Option.some.inj hi'
    rw [heq] at hdone
    rw [hdone'] at hdone
    exact Bool.false_ne_true hdone

/-- C2 witness: the characterization applied to the concrete three-insert
store: id 2 is returned, and it is backed by a stored matching item; the
done-exclusion part applied after completing item 0 shows 0 disappears. -/
theorem claim2_search_witness :
    (∃ item : TodoItem,
      item ∈ (((TodoList.new.push [97] []).2.push [97] []).2.push [97] []).2.items ∧
      item.index = 2 ∧ item.done = false ∧
      match_words [[97]] item.words_hash item.description = true ∧
      match_words [] item.tags_hash item.tags = true) ∧
    ¬(0 ∈ ((((TodoList.new.push [97] []).2.push [97] []).2.push [97]
        []).2.done_with_index 0).2.search ⟨[[97]], []⟩) := by
  constructor
  · exact (claim2_search (((TodoList.new.push [97] []).2.push [97] []).2.push [97] []).2
      ⟨[[97]], []⟩).2.1 2 (by decide)
  · have hwf : WF ((((TodoList.new.push [97] []).2.push [97] []).2.push [97]
        []).2.done_with_index 0).2 :=
      reachable_wf (Reachable.done (Reachable.push (Reachable.push
        (Reachable.push Reachable.new))))
    have h := (claim2_search ((((TodoList.new.push [97] []).2.push [97]
        []).2.push [97] []).2.done_with_index 0).2 ⟨[[97]], []⟩).2.2.1 hwf
      { index := 0, description := [[97]], tags := [], done := true,
        words_hash := [1], tags_hash := [] } (by decide) (by decide)
    exact h

/-- C5: `done_with_index` fails (returns `none`, the NotFound signal)
exactly when the identifier is at least the next-identifier counter, and
then leaves the store unchanged; for a smaller identifier it returns
`some idx` and sets that item's done flag; a second completion of the same
item again succeeds and leaves the store exactly as after the first. -/
theorem claim5_done_with_index (tl : TodoList) (idx : Nat) :
    ((tl.done_with_index idx).1 = none ↔ tl.top_index ≤ idx) ∧
    (tl.top_index ≤ idx → tl.done_with_index idx = (none, tl)) ∧
    (idx < tl.top_index →
      (tl.done_with_index idx).1 = some idx ∧
      (∀ it : TodoItem, tl.items[idx]? = some it →
        (tl.done_with_index idx).2.items[idx]? = some { it with done := true }) ∧
      (tl.done_with_index idx).2.done_with_index idx =
        (some idx, (tl.done_with_index idx).2)) := by
  by_cases h : idx < tl.top_index
  · refine ⟨?_, fun hle => absurd h (by omega), fun _ => ⟨?_, ?_, ?_⟩⟩
    · simp only [TodoList.done_with_index, if_pos h]
      constructor
      · intro hx; cases hx
      · intro hle; exact absurd h (by omega)
    · simp [TodoList.done_with_index, h]
    · intro it hit
      simp only [TodoList.done_with_index, if_pos h]
      rw [setDone_getElem?, hit]
      simp
    · simp [TodoList.done_with_index, h, setDone_idem]
  · refine ⟨?_, fun _ => ?_, fun hlt => absurd hlt h⟩
    · simp only [TodoList.done_with_index, if_neg h]
      constructor
      · intro _; omega
      · intro _; trivial
    · simp [TodoList.done_with_index, h]

/-- C5 witness: on the one-item store, completing id 0 succeeds and
completing id 5 (never assigned) fails with the store unchanged. -/
theorem claim5_done_with_index_witness :
    ((TodoList.new.push [97] []).2.done_with_index 0).1 = some 0 ∧
    (TodoList.new.push [97] []).2.done_with_index 5 =
      (none, (TodoList.new.push [97] []).2) := by
  refine ⟨((claim5_done_with_index (TodoList.new.push [97] []).2 0).2.2
    (by decide)).1, ?_⟩
  exact (claim5_done_with_index (TodoList.new.push [97] []).2 5).2.1 (by decide)

/-- C9: the done flag is the only field ever mutated: `done_with_index`
preserves the counter, the item count, and every field of every item
except possibly the target's done flag (items other than the target keep
their done flag too); `push` appends one item, leaving the existing items
untouched and incrementing the counter.  `search` takes the store immutably
(`&self` in the source) and is embedded as a pure function of the store, so
it cannot change it. -/
theorem claim9_frame (tl : TodoList) (idx : Nat) (d : List Nat)
    (tg : List (List Nat)) :
    ((tl.done_with_index idx).2.top_index = tl.top_index ∧
     (tl.done_with_index idx).2.items.length = tl.items.length ∧
     (∀ (j : Nat) (it' : TodoItem),
        (tl.done_with_index idx).2.items[j]? = some it' →
        ∃ it : TodoItem, tl.items[j]? = some it ∧ it'.index = it.index ∧
          it'.description = it.description ∧ it'.tags = it.tags ∧
          it'.words_hash = it.words_hash ∧ it'.tags_hash = it.tags_hash ∧
          (j ≠ idx → it'.done = it.done))) ∧
    ((tl.push d tg).2.top_index = tl.top_index + 1 ∧
     (tl.push d tg).2.items.length = tl.items.length + 1 ∧
     ∀ j : Nat, j < tl.items.length → (tl.push d tg).2.items[j]? = tl.items[j]?) := by
  refine ⟨⟨?_, ?_, ?_⟩, rfl, by simp [TodoList.push], ?_⟩
  · by_cases h : idx < tl.top_index <;> simp [TodoList.done_with_index, h]
  · by_cases h : idx < tl.top_index <;> simp [TodoList.done_with_index, h, setDone_length]
  · intro j it' hit'
    by_cases h : idx < tl.top_index
    · simp only [TodoList.done_with_index, if_pos h] at hit'
      rw [setDone_getElem?] at hit'
      cases ho : tl.items[j]? with
      | none => rw [ho] at hit'; simp at hit'
      | some it =>
        rw [ho] at hit'
        have hit'' : (if j = idx then { it with done := true } else it) = it' := by
          simpa using hit'
        refine ⟨it, rfl, ?_⟩
        by_cases hj : j = idx
        · rw [if_pos hj] at hit''
          rw [← hit'']
          exact ⟨rfl, rfl, rfl, rfl, rfl, fun hne => absurd hj hne⟩
        · rw [if_neg hj] at hit''
          rw [← hit'']
          exact ⟨rfl, rfl, rfl, rfl, rfl, fun _ => rfl⟩
    · simp only [TodoList.done_with_index, if_neg h] at hit'
      exact ⟨it', hit', rfl, rfl, rfl, rfl, rfl, fun _ => rfl⟩
  · intro j hj
    simp only [TodoList.push]
    rw [List.getElem?_append, if_pos hj]

/-- C9 witness: the frame conditions evaluated on concrete stores: a second
push does not disturb the first item, and completing an item preserves the
counter and yields an item differing at most in its done flag. -/
theorem claim9_frame_witness :
    ((TodoList.new.push [97] []).2.push [98] []).2.items[0]? =
      (TodoList.new.push [97] []).2.items[0]? ∧
    ((TodoList.new.push [97] []).2.done_with_index 0).2.top_index =
      (TodoList.new.push [97] []).2.top_index ∧
    (∃ it : TodoItem, (TodoList.new.push [97] []).2.items[0]? = some it ∧
      ({ index := 0, description := [[97]], tags := [], done := true,
         words_hash := [1], tags_hash := [] } : TodoItem).index = it.index) := by
  refine ⟨(claim9_frame (TodoList.new.push [97] []).2 0 [98] []).2.2.2 0 (by decide),
    (claim9_frame (TodoList.new.push [97] []).2 0 [] []).1.1, ?_⟩
  have h := (claim9_frame (TodoList.new.push [97] []).2 0 [] []).1.2.2 0
    { index := 0, description := [[97]], tags := [], done := true,
      words_hash := [1], tags_hash := [] } (by decide)
  rcases h with ⟨it, hit, hix, _⟩
  exact ⟨it, hit, hix⟩

/-- C10: every store reachable from `TodoList::new` by `push`,
`done_with_index` and `search` satisfies: the counter `top_index` equals
the number of items, the item stored at vector position `i` carries
identifier `i` (so identifiers are exactly 0, 1, …, `top_index` - 1,
unique and never reused), and the vector access in `done_with_index` is in
bounds whenever `idx < top_index`. -/
theorem claim10_invariant (tl : TodoList) (hr : Reachable tl) :
    tl.top_index = tl.items.length ∧
    (∀ (i : Nat) (it : TodoItem), tl.items[i]? = some it → it.index = i) ∧
    (∀ idx : Nat, idx < tl.top_index → idx < tl.items.length) := by
  obtain ⟨hlen, hidx⟩ := reachable_wf hr
  exact ⟨hlen, hidx, fun idx h => by omega⟩

/-- C10 witness: the invariant applied to the concrete reachable store with
one pushed and completed item. -/
theorem claim10_invariant_witness :
    ((TodoList.new.push [97] []).2.done_with_index 0).2.top_index =
      ((TodoList.new.push [97] []).2.done_with_index 0).2.items.length :=
  (claim10_invariant _ (Reachable.done (Reachable.push Reachable.new))).1

end Todo
